import Mathlib

/-!
# Verification development for `task3.go`

`task3.go` requests one exchange-rate document per calendar day of a look-back
window, parses and merges every day into a shared map keyed by currency code,
and finally prints minimum, maximum and average per currency.

Modelling conventions.

* `float64` values and their comparison, addition and division follow IEEE 754
  binary64 with rounding to nearest, ties to even.
* Library calls (`strconv.ParseFloat`, the XML decoder, the HTTP client) are not
  part of the program; they enter as parameters.  The `time` methods used by the
  day loop are modelled after the library.
* Go's `map[string][]Valute` is an association list with at most one entry per
  key; iteration order of a Go map is unspecified, so nothing below depends on
  the order of the entries.
* Console output is represented by the values handed to `Printf`.
-/

namespace Task3

/-! ## Constants and data model (lines 17-37) -/

/-- Constant `IntervalLength` (line 18). -/
def IntervalLength : Nat := 90

/-- Constant `UserAgent` (line 19). -/
def UserAgent : String := "tz_procontext"

/-! ## `float64` arithmetic

The program compares, adds and divides `float64` values.  The operations are
those of IEEE 754 binary64 with rounding to nearest, ties to even. -/

/-- Number of binary digits of `n`, counted with at most `fuel` halvings. -/
def bitLenAux : Nat → Nat → Nat
  | 0, _ => 0
  | fuel + 1, n => if n = 0 then 0 else bitLenAux fuel (n / 2) + 1

/-- Number of binary digits of `n`; 0 for 0. -/
def bitLength (n : Nat) : Nat := bitLenAux n n

/-- A `float64`: not-a-number, an infinity, or the finite value
`(-1)^neg * m * 2^e`.  Zero carries a sign.  The operations below return finite
values with `m` odd, or with `m = 0` and `e = 0`; they accept every
representation of a value. -/
inductive Float64 where
  | nan
  | inf (neg : Bool)
  | fin (neg : Bool) (m : Nat) (e : Int)
deriving DecidableEq

/-- Positive zero, the value of the literal `0.0`. -/
def Float64.zero : Float64 := .fin false 0 0

/-- Value of `math.MaxFloat64`, the largest finite `float64`:
`(2^53 - 1) * 2^971`. -/
def MaxFloat64 : Float64 := .fin false (2 ^ 53 - 1) 971

/-- The rational number a finite `float64` denotes. -/
def Float64.toRat : Float64 → Option ℚ
  | .nan => none
  | .inf _ => none
  | .fin neg m e => some ((if neg then -1 else 1) * (m : ℚ) * (2 : ℚ) ^ e)

/-- Whether a `float64` is finite. -/
def Float64.isFinite : Float64 → Bool
  | .fin _ _ _ => true
  | _ => false

/-- The rational number a finite `float64` denotes, and 0 for the others. -/
def Float64.value (x : Float64) : ℚ := x.toRat.getD 0

/-- Move factors of two from `m` into the exponent, at most `fuel` times. -/
def stripAux : Nat → Nat → Int → Nat × Int
  | 0, m, e => (m, e)
  | fuel + 1, m, e => if m % 2 = 0 then stripAux fuel (m / 2) (e + 1) else (m, e)

/-- The finite value `(-1)^neg * m * 2^e` with `m` made odd. -/
def Float64.canon (neg : Bool) (m : Nat) (e : Int) : Float64 :=
  if m = 0 then .fin neg 0 0 else
    let p := stripAux (bitLength m) m e
    .fin neg p.1 p.2

/-- The `float64` nearest to `(-1)^neg * (N / D) * 2^s`, ties to even, for
`D > 0`: 53 significant bits, smallest exponent `-1074`, overflow to infinity
and underflow to a signed zero. -/
def Float64.roundRatio (neg : Bool) (N D : Nat) (s : Int) : Float64 :=
  if N = 0 then .fin neg 0 0 else
  let k : Int := (bitLength N : Int) - (bitLength D : Int)
  let ge : Bool :=
    if 0 ≤ k then decide (D * 2 ^ k.toNat ≤ N) else decide (D ≤ N * 2 ^ (-k).toNat)
  let fl : Int := if ge then k else k - 1
  let u : Int := max (fl + s - 52) (-1074)
  let t : Int := s - u
  let num : Nat := if 0 ≤ t then N * 2 ^ t.toNat else N
  let den : Nat := if 0 ≤ t then D else D * 2 ^ (-t).toNat
  let f : Nat := num / den
  let r : Nat := num % den
  let m : Nat :=
    if 2 * r < den then f
    else if den < 2 * r then f + 1
    else if f % 2 = 0 then f else f + 1
  if (bitLength m : Int) + u > 1024 then .inf neg else Float64.canon neg m u

/-- The integer `(-1)^neg * m * 2^(e - emin)`, for `emin ≤ e`. -/
def Float64.signed (neg : Bool) (m : Nat) (e emin : Int) : Int :=
  let a : Int := ((m * 2 ^ (e - emin).toNat : Nat) : Int)
  if neg then -a else a

/-- Operator `+` on `float64`. -/
def Float64.add : Float64 → Float64 → Float64
  | .nan, _ => .nan
  | _, .nan => .nan
  | .inf na, .inf nb => if na = nb then .inf na else .nan
  | .inf na, .fin _ _ _ => .inf na
  | .fin _ _ _, .inf nb => .inf nb
  | .fin na ma ea, .fin nb mb eb =>
    let emin := min ea eb
    let S : Int := Float64.signed na ma ea emin + Float64.signed nb mb eb emin
    if S = 0 then .fin (na && nb) 0 0
    else Float64.roundRatio (decide (S < 0)) S.natAbs 1 emin

/-- Operator `/` on `float64`. -/
def Float64.div : Float64 → Float64 → Float64
  | .nan, _ => .nan
  | _, .nan => .nan
  | .inf _, .inf _ => .nan
  | .inf na, .fin nb _ _ => .inf (xor na nb)
  | .fin na _ _, .inf nb => .fin (xor na nb) 0 0
  | .fin na ma ea, .fin nb mb eb =>
    if mb = 0 then (if ma = 0 then .nan else .inf (xor na nb))
    else Float64.roundRatio (xor na nb) ma mb (ea - eb)

/-- Conversion `float64(n)` of an integer. -/
def Float64.ofInt (n : Int) : Float64 :=
  Float64.roundRatio (decide (n < 0)) n.natAbs 1 0

/-- Operator `<` on `float64`; `a > b` is `b < a`.  Every comparison with a
not-a-number is false, and the two zeros are equal. -/
def Float64.lt : Float64 → Float64 → Bool
  | .nan, _ => false
  | _, .nan => false
  | .inf na, .inf nb => na && !nb
  | .inf na, .fin _ _ _ => na
  | .fin _ _ _, .inf nb => !nb
  | .fin na ma ea, .fin nb mb eb =>
    let emin := min ea eb
    decide (Float64.signed na ma ea emin < Float64.signed nb mb eb emin)

/-- Struct `Valute` (lines 27-37). -/
structure Valute where
  NumCode : String
  CharCode : String
  Nominal : Int
  Name : String
  Value : Float64
  VunitRate : Float64
  ValueStr : String
  VunitStr : String
  Date : String
deriving DecidableEq

/-- Struct `ValCurs` (lines 22-25). -/
structure ValCurs where
  Date : String
  Valutes : List Valute
deriving DecidableEq

/-! ## The shared map `valuteRecords` -/

/-- Model of `map[string][]Valute`. -/
abbrev Records := List (String × List Valute)

/-- Read `m[k]`; a missing key yields the nil slice. -/
def mapGet : Records → String → List Valute
  | [], _ => []
  | (k0, vs) :: rest, k => if k0 = k then vs else mapGet rest k

/-- Assignment `m[k] = vs`: overwrite the entry of `k` or create it. -/
def mapSet : Records → String → List Valute → Records
  | [], k, vs => [(k, vs)]
  | (k0, vs0) :: rest, k, vs =>
    if k0 = k then (k0, vs) :: rest else (k0, vs0) :: mapSet rest k vs

/-- Keys present in the map. -/
def mapKeys (m : Records) : List String := m.map Prod.fst

/-! ## `parseFloat` (lines 146-149) -/

/-- Call `strings.Replace(s, old, new, -1)` for one-character `old` and `new`:
every occurrence is replaced.  The two characters used by the program are
ASCII, so replacing bytes and replacing characters coincide. -/
def stringsReplace (s : String) (old new : Char) : String :=
  String.mk (s.data.map (fun c => if c = old then new else c))

/-- Function `parseFloat` (lines 146-149); `ParseFloat` stands for
`strconv.ParseFloat(·, 64)`, returning a value or an error. -/
def parseFloat {ε : Type} (ParseFloat : String → Except ε Float64) (value : String) :
    Except ε Float64 :=
  ParseFloat (stringsReplace value ',' '.')

/-! ## `fetchCurs` (lines 40-95) -/

/-- What the HTTP part of `fetchCurs` (lines 43-63) observes for one URL. -/
inductive Exchange where
  /-- Call `http.NewRequest` returned an error (line 45). -/
  | requestError
  /-- Call `client.Do` returned an error (line 53). -/
  | transportError
  /-- A response with the given status arrived, but `io.ReadAll` failed
  (line 60). -/
  | readError (status : Nat)
  /-- A response with the given status arrived and its body was read. -/
  | answered (status : Nat) (body : String)
deriving DecidableEq

/-- The request URL built on line 43. -/
def requestURL (date : String) : String :=
  "http://www.cbr.ru/scripts/XML_daily_eng.asp?date_req=" ++ date

/-- First loop of `fetchCurs` (lines 75-88): parse both rate texts of every
record and stamp the requested date; the first parse error aborts (`none`). -/
def parseValutes {ε : Type} (ParseFloat : String → Except ε Float64) (date : String) :
    List Valute → Option (List Valute)
  | [] => some []
  | v :: rest =>
    match parseFloat ParseFloat v.ValueStr with
    | .error _ => none
    | .ok value =>
      match parseFloat ParseFloat v.VunitStr with
      | .error _ => none
      | .ok vunit =>
        match parseValutes ParseFloat date rest with
        | none => none
        | some rest1 =>
          some ({ v with Value := value, VunitRate := vunit, Date := date } :: rest1)

/-- Second loop of `fetchCurs` (lines 90-94), executed under the mutex:
append every record to the entry of its currency code. -/
def mergeValutes (valuteRecords : Records) (valutes : List Valute) : Records :=
  valutes.foldl (fun m v => mapSet m v.CharCode (mapGet m v.CharCode ++ [v])) valuteRecords

/-- Function `fetchCurs` (lines 40-95): the map after the call.  `http` answers
the request for a URL, `xmlDecode` is the XML decoder with charset support
(`none` when decoding fails). -/
def fetchCurs {ε : Type} (ParseFloat : String → Except ε Float64)
    (xmlDecode : String → Option ValCurs) (http : String → Exchange)
    (date : String) (valuteRecords : Records) : Records :=
  match http (requestURL date) with
  | .requestError => valuteRecords
  | .transportError => valuteRecords
  | .readError _ => valuteRecords
  | .answered _ body =>
    match xmlDecode body with
    | none => valuteRecords
    | some curs =>
      match parseValutes ParseFloat date curs.Valutes with
      | none => valuteRecords
      | some valutes => mergeValutes valuteRecords valutes

/-- One day-task: the requested date and what the network does for it. -/
structure DayTask where
  date : String
  http : String → Exchange

/-- The map after the given day-tasks ran their `fetchCurs` one after the
other, in list order. -/
def runTasks {ε : Type} (ParseFloat : String → Except ε Float64)
    (xmlDecode : String → Option ValCurs) (tasks : List DayTask)
    (valuteRecords : Records) : Records :=
  tasks.foldl (fun m t => fetchCurs ParseFloat xmlDecode t.http t.date m) valuteRecords

/-- The records one call of `fetchCurs` hands to its merge loop: the parsed
records of the day, and nothing when the call returns early. -/
def fetched {ε : Type} (ParseFloat : String → Except ε Float64)
    (xmlDecode : String → Option ValCurs) (t : DayTask) : List Valute :=
  match t.http (requestURL t.date) with
  | .answered _ body =>
    match xmlDecode body with
    | some curs => (parseValutes ParseFloat t.date curs.Valutes).getD []
    | none => []
  | _ => []

/-- The same exchange with the status code of the response replaced. -/
def Exchange.withStatus (s : Nat) : Exchange → Exchange
  | .requestError => .requestError
  | .transportError => .transportError
  | .readError _ => .readError s
  | .answered _ body => .answered s body

/-- Whether an HTTP status code is a success code (2xx). -/
def isSuccessStatus (status : Nat) : Bool := decide (200 ≤ status) && decide (status < 300)

/-! ## The day loop of `main` (lines 98-110)

`main` works with `time.Time` values in the local time zone.  The methods it
calls are library code; they are modelled after the library: a `Time` is an
instant together with a location, `AddDate` goes through `time.Date`, which
resolves a local date and clock time to an instant by looking up the zone
offset, and `Before` compares instants.  Only days are ever added, so a local
date and clock time is represented by the number of seconds it would denote if
it were read as UTC. -/

/-- A `time.Location`: the UTC offset in seconds in force before the first
transition, and the transitions in ascending order, each an instant in Unix
seconds with the offset in force from then on. -/
structure Location where
  first : Int
  tx : List (Int × Int)
deriving DecidableEq

/-- Lower end of the validity range of the first zone. -/
def alpha : Int := -(2 ^ 63)

/-- Upper end of the validity range of the last zone. -/
def omega : Int := 2 ^ 63 - 1

/-- Walk the transitions: the offset in force at `sec` and the range
`[start, end)` of instants in which that offset is in force. -/
def lookupFrom (sec : Int) : Int → Int → List (Int × Int) → Int × Int × Int
  | offset, start, [] => (offset, start, omega)
  | offset, start, (w, o) :: rest =>
    if sec < w then (offset, start, w) else lookupFrom sec o w rest

/-- Method `lookup` of a location: `(offset, start, end)` for the instant
`sec`. -/
def Location.lookup (l : Location) (sec : Int) : Int × Int × Int :=
  lookupFrom sec l.first alpha l.tx

/-- A `time.Time`: Unix seconds, nanoseconds within the second, location. -/
structure Time where
  unix : Int
  nsec : Nat
  loc : Location
deriving DecidableEq

/-- Function `time.Date` for a local date and clock time given as `wall`, the
seconds since the epoch the same date and clock time has in UTC.  The offset is
looked up at `wall`; when `wall - offset` is outside the range of that offset
the offset is looked up again at `wall - offset`. -/
def Date (wall : Int) (nsec : Nat) (loc : Location) : Time :=
  let r := loc.lookup wall
  let offset := r.1
  if offset ≠ 0 then
    let utc := wall - offset
    let offset1 := if utc < r.2.1 ∨ utc ≥ r.2.2 then (loc.lookup utc).1 else offset
    { unix := wall - offset1, nsec := nsec, loc := loc }
  else { unix := wall, nsec := nsec, loc := loc }

/-- The local date and clock time of `t`, as seconds since the epoch read in
UTC (what the methods `Date` and `Clock` of `t` return). -/
def Time.wall (t : Time) : Int := t.unix + (t.loc.lookup t.unix).1

/-- Method `AddDate(0, 0, days)`: `time.Date` of the local date moved by `days`
days with the local clock time of `t`. -/
def Time.AddDate (t : Time) (days : Int) : Time :=
  Date (t.wall + 86400 * days) t.nsec t.loc

/-- Method `Before`: comparison of instants. -/
def Time.Before (t u : Time) : Bool :=
  decide (t.unix < u.unix) || (decide (t.unix = u.unix) && decide (t.nsec < u.nsec))

/-- The local calendar day of `t` as a day number since the epoch; the text
`Format("02/01/2006")` produces is the day, month and year of this day. -/
def Time.civilDay (t : Time) : Int := t.wall / 86400

/-- The loop `for d := startDate; d.Before(now); d = d.AddDate(0, 0, 1)`
(line 106): the successive values of `d` for which the body runs, or `none`
when the loop has not ended after `fuel` tests of its condition. -/
def dayLoop : Nat → Time → Time → Option (List Time)
  | 0, _, _ => none
  | fuel + 1, now, d =>
    if d.Before now then (dayLoop fuel now (d.AddDate 1)).map (fun l => d :: l)
    else some []

/-- The values of `d` for which `main` launches a task (lines 98-110). -/
def mainDays (fuel : Nat) (now : Time) : Option (List Time) :=
  dayLoop fuel now (now.AddDate (-(IntervalLength : Int)))

/-! ## The summary loop of `main` (lines 113-143) -/

/-- Local variables of the loop body (lines 118-122). -/
structure Acc where
  minRate : Float64
  maxRate : Float64
  sumRate : Float64
  minRateDate : String
  maxRateDate : String
deriving DecidableEq

/-- One iteration of the inner loop (lines 125-133). -/
def summaryStep (a : Acc) (rate : Valute) : Acc :=
  let a1 := if Float64.lt rate.Value a.minRate then
    { a with minRate := rate.Value, minRateDate := rate.Date } else a
  let a2 := if Float64.lt a1.maxRate rate.Value then
    { a1 with maxRate := rate.Value, maxRateDate := rate.Date } else a1
  { a2 with sumRate := Float64.add a2.sumRate rate.Value }

/-- Initial values of the local variables (lines 118-122); `nowDate` and
`startDate` are the formatted `now` and `startDate`. -/
def initAcc (nowDate startDate : String) : Acc :=
  { minRate := MaxFloat64, maxRate := Float64.zero, sumRate := Float64.zero,
    minRateDate := nowDate, maxRateDate := startDate }

/-- The values printed for one currency (lines 139-142). -/
structure SummaryLine where
  Name : String
  charCode : String
  maxRate : Float64
  maxRateDate : String
  minRate : Float64
  minRateDate : String
  avgRate : Float64
deriving DecidableEq

/-- Body of the summary loop for one map entry (lines 114-142): `none` when the
entry is skipped by `continue`. -/
def summarize (nowDate startDate charCode : String) (rates : List Valute) :
    Option SummaryLine :=
  match rates with
  | [] => none
  | first :: _ =>
    let a := rates.foldl summaryStep (initAcc nowDate startDate)
    some { Name := first.Name, charCode := charCode,
           maxRate := a.maxRate, maxRateDate := a.maxRateDate,
           minRate := a.minRate, minRateDate := a.minRateDate,
           avgRate := Float64.div a.sumRate (Float64.ofInt (rates.length : Int)) }

/-- The summary loop (lines 113-143): the lines printed, one per entry that is
not skipped. -/
def summaryLoop (nowDate startDate : String) (valuteRecords : Records) :
    List SummaryLine :=
  valuteRecords.filterMap (fun e => summarize nowDate startDate e.1 e.2)

/-! ## Concrete inputs

Small instances of the library parameters and of the data, used to evaluate the
definitions above. -/

/-- The `float64` value 93.5, that is `187 * 2^(-1)`. -/
def rate93_5 : Float64 := .fin false 187 (-1)

/-- A stand-in for `strconv.ParseFloat` that knows two texts and rejects every
other one. -/
def sampleParseFloat (s : String) : Except String Float64 :=
  if s = "93.5" then .ok rate93_5
  else if s = "101.25" then .ok (.fin false 405 (-2))
  else .error s

/-- A record as the XML decoder leaves it: both numeric fields zero, the two
rate texts filled in. -/
def sampleRecord (code valueStr : String) : Valute :=
  { NumCode := "", CharCode := code, Nominal := 1, Name := code, Value := Float64.zero,
    VunitRate := Float64.zero, ValueStr := valueStr, VunitStr := valueStr, Date := "" }

/-- A stand-in for the XML decoder that knows two bodies: `usd` holds one
parsable record, `mixed` holds a parsable record followed by one whose rate
text is not a number. -/
def sampleDecode (body : String) : Option ValCurs :=
  if body = "usd" then
    some { Date := "02.03.2024", Valutes := [sampleRecord "USD" "93,5"] }
  else if body = "mixed" then
    some { Date := "02.03.2024",
           Valutes := [sampleRecord "USD" "93,5", sampleRecord "EUR" "n/a"] }
  else none

/-- An observation as stored in the map. -/
def obs (code : String) (value : Float64) (date : String) : Valute :=
  { NumCode := "", CharCode := code, Nominal := 1, Name := code, Value := value,
    VunitRate := value, ValueStr := "", VunitStr := "", Date := date }

/-- The zone America/New_York around 2024: daylight time until 2023-11-05
06:00 UTC, standard time until 2024-03-10 07:00 UTC, daylight time until
2024-11-03 06:00 UTC.  Day 19723 is 2024-01-01. -/
def newYork : Location :=
  { first := -14400,
    tx := [(19666 * 86400 + 6 * 3600, -18000), (19792 * 86400 + 7 * 3600, -14400),
           (20030 * 86400 + 6 * 3600, -18000)] }

/-- The zone America/Santiago around 2024: summer time until 2024-04-07
03:00 UTC, winter time until 2024-09-08 04:00 UTC, summer time after. -/
def santiago : Location :=
  { first := -10800,
    tx := [(19820 * 86400 + 3 * 3600, -14400), (19974 * 86400 + 4 * 3600, -10800)] }

/-- The instant 2024-04-01 02:30 local time in New York (06:30 UTC). -/
def newYorkNow : Time :=
  { unix := 19814 * 86400 + 6 * 3600 + 1800, nsec := 0, loc := newYork }

/-- The instant 2024-10-01 00:30 local time in Santiago (03:30 UTC). -/
def santiagoNow : Time :=
  { unix := 19997 * 86400 + 3 * 3600 + 1800, nsec := 0, loc := santiago }

/-- The instant 2024-04-01 02:30 local time in a zone fixed at UTC+3. -/
def fixedNow : Time :=
  { unix := 19813 * 86400 + 23 * 3600 + 1800, nsec := 0, loc := { first := 10800, tx := [] } }

/-! ## Evaluation limits

The evaluations below unfold a few thousand steps and powers of two up to
`2^1074`. -/

set_option maxRecDepth 100000

set_option exponentiation.threshold 4000

/-! ## Lemmas on the map -/

theorem mapGet_mapSet (m : Records) (k k1 : String) (vs : List Valute) :
    mapGet (mapSet m k vs) k1 = if k = k1 then vs else mapGet m k1 := by
  induction m with
  | nil => simp [mapSet, mapGet]
  | cons e rest ih =>
    obtain ⟨k0, vs0⟩ := e
    by_cases h0 : k0 = k
    · subst h0
      by_cases h1 : k0 = k1 <;> simp [mapSet, mapGet, h1]
    · by_cases h1 : k0 = k1
      · subst h1
        have : ¬ k = k0 := fun h => h0 h.symm
        simp [mapSet, mapGet, h0, this]
      · simp [mapSet, mapGet, h0, h1, ih]

theorem mapGet_mergeValutes (valutes : List Valute) (m : Records) (c : String) :
    mapGet (mergeValutes m valutes) c
      = mapGet m c ++ valutes.filter (fun v => decide (v.CharCode = c)) := by
  induction valutes generalizing m with
  | nil => simp [mergeValutes]
  | cons v rest ih =>
    have hstep : mergeValutes m (v :: rest)
        = mergeValutes (mapSet m v.CharCode (mapGet m v.CharCode ++ [v])) rest := rfl
    rw [hstep, ih, mapGet_mapSet]
    by_cases hc : v.CharCode = c
    · subst hc
      simp
    · simp [hc]

/-! ## Lemmas on `fetchCurs` -/

theorem fetchCurs_eq_merge {ε : Type} (PF : String → Except ε Float64)
    (xmlDecode : String → Option ValCurs) (t : DayTask) (m : Records) :
    fetchCurs PF xmlDecode t.http t.date m = mergeValutes m (fetched PF xmlDecode t) := by
  unfold fetchCurs fetched
  cases t.http (requestURL t.date) with
  | requestError => simp [mergeValutes]
  | transportError => simp [mergeValutes]
  | readError s => simp [mergeValutes]
  | answered s body =>
    cases h2 : xmlDecode body with
    | none => simp [h2, mergeValutes]
    | some curs =>
      cases h3 : parseValutes PF t.date curs.Valutes with
      | none => simp [h2, h3, mergeValutes]
      | some vs => simp [h2, h3]

theorem parseValutes_none_of_error {ε : Type} (PF : String → Except ε Float64) (date : String)
    (valutes : List Valute)
    (h : ∃ v ∈ valutes, (∃ e, parseFloat PF v.ValueStr = .error e)
      ∨ (∃ e, parseFloat PF v.VunitStr = .error e)) :
    parseValutes PF date valutes = none := by
  induction valutes with
  | nil => simp at h
  | cons v rest ih =>
    unfold parseValutes
    cases hv : parseFloat PF v.ValueStr with
    | error e => rfl
    | ok x =>
      cases hu : parseFloat PF v.VunitStr with
      | error e => rfl
      | ok y =>
        have hrest : parseValutes PF date rest = none := by
          apply ih
          obtain ⟨w, hw, hbad⟩ := h
          rcases List.mem_cons.mp hw with rfl | hw1
          · rcases hbad with ⟨e, he⟩ | ⟨e, he⟩
            · rw [hv] at he; cases he
            · rw [hu] at he; cases he
          · exact ⟨w, hw1, hbad⟩
        simp [hrest]

theorem parseValutes_some_of_ok {ε : Type} (PF : String → Except ε Float64) (date : String)
    (valutes : List Valute)
    (h : ∀ v ∈ valutes, (∃ x, parseFloat PF v.ValueStr = .ok x)
      ∧ (∃ y, parseFloat PF v.VunitStr = .ok y)) :
    ∃ out, parseValutes PF date valutes = some out := by
  induction valutes with
  | nil => exact ⟨[], rfl⟩
  | cons v rest ih =>
    obtain ⟨⟨x, hx⟩, ⟨y, hy⟩⟩ := h v (List.mem_cons_self v rest)
    obtain ⟨out, hout⟩ := ih (fun w hw => h w (List.mem_cons_of_mem v hw))
    refine ⟨{ v with Value := x, VunitRate := y, Date := date } :: out, ?_⟩
    unfold parseValutes
    simp [hx, hy, hout]

theorem parseValutes_spec {ε : Type} (PF : String → Except ε Float64) (date : String)
    (valutes out : List Valute) (h : parseValutes PF date valutes = some out) :
    out.length = valutes.length
      ∧ out.map Valute.CharCode = valutes.map Valute.CharCode
      ∧ ∀ v ∈ out, v.Date = date := by
  induction valutes generalizing out with
  | nil =>
    simp [parseValutes] at h
    subst h
    simp
  | cons v rest ih =>
    unfold parseValutes at h
    cases hv : parseFloat PF v.ValueStr with
    | error e => simp [hv] at h
    | ok x =>
      cases hu : parseFloat PF v.VunitStr with
      | error e => simp [hv, hu] at h
      | ok y =>
        cases hr : parseValutes PF date rest with
        | none => simp [hv, hu, hr] at h
        | some out1 =>
          simp [hv, hu, hr] at h
          subst h
          obtain ⟨h1, h2, h3⟩ := ih out1 hr
          refine ⟨by simp [h1], by simp [h2], ?_⟩
          intro w hw
          rcases List.mem_cons.mp hw with rfl | hw1
          · rfl
          · exact h3 w hw1

/-! ## Invariants of the map under merging -/

theorem mem_mapKeys_mapSet (m : Records) (k x : String) (vs : List Valute) :
    x ∈ mapKeys (mapSet m k vs) ↔ x ∈ mapKeys m ∨ x = k := by
  induction m with
  | nil => simp [mapSet, mapKeys]
  | cons e rest ih =>
    obtain ⟨k0, vs0⟩ := e
    by_cases h0 : k0 = k
    · subst h0
      simp only [mapSet, if_true, mapKeys, List.map_cons, List.mem_cons]
      tauto
    · have ih1 : x ∈ List.map Prod.fst (mapSet rest k vs)
          ↔ x ∈ List.map Prod.fst rest ∨ x = k := ih
      simp only [mapSet, h0, if_false, mapKeys, List.map_cons, List.mem_cons, ih1]
      tauto

theorem nodup_mapKeys_mapSet (m : Records) (k : String) (vs : List Valute)
    (h : (mapKeys m).Nodup) : (mapKeys (mapSet m k vs)).Nodup := by
  induction m with
  | nil => simp [mapSet, mapKeys]
  | cons e rest ih =>
    obtain ⟨k0, vs0⟩ := e
    have hcons : k0 ∉ mapKeys rest ∧ (mapKeys rest).Nodup := by
      simpa [mapKeys] using h
    by_cases h0 : k0 = k
    · subst h0
      simpa [mapSet, mapKeys] using h
    · have hnot : k0 ∉ mapKeys (mapSet rest k vs) := by
        rw [mem_mapKeys_mapSet]
        rintro (hin | heq)
        · exact hcons.1 hin
        · exact h0 heq
      have hrec := ih hcons.2
      simp only [mapSet, h0, if_false]
      exact List.nodup_cons.mpr ⟨hnot, hrec⟩

theorem mem_mapSet (m : Records) (k : String) (vs : List Valute) (e : String × List Valute)
    (h : e ∈ mapSet m k vs) : e ∈ m ∨ e = (k, vs) := by
  induction m with
  | nil =>
    right
    simpa [mapSet] using h
  | cons e0 rest ih =>
    obtain ⟨k0, vs0⟩ := e0
    by_cases h0 : k0 = k
    · subst h0
      simp only [mapSet, if_true, List.mem_cons] at h
      rcases h with h | h
      · exact Or.inr h
      · exact Or.inl (List.mem_cons_of_mem _ h)
    · simp only [mapSet, h0, if_false, List.mem_cons] at h
      rcases h with h | h
      · exact Or.inl (by rw [h]; exact List.mem_cons_self _ _)
      · rcases ih h with h1 | h1
        · exact Or.inl (List.mem_cons_of_mem _ h1)
        · exact Or.inr h1

theorem mapGet_of_mem (m : Records) (k : String) (vs : List Valute)
    (hnd : (mapKeys m).Nodup) (h : (k, vs) ∈ m) : mapGet m k = vs := by
  induction m with
  | nil => simp at h
  | cons e rest ih =>
    obtain ⟨k0, vs0⟩ := e
    have hcons : k0 ∉ mapKeys rest ∧ (mapKeys rest).Nodup := by
      simpa [mapKeys] using hnd
    rcases List.mem_cons.mp h with heq | hin
    · cases heq
      simp [mapGet]
    · have hne : k0 ≠ k := by
        intro hk
        apply hcons.1
        rw [hk]
        exact List.mem_map.mpr ⟨(k, vs), hin, rfl⟩
      simp only [mapGet, hne, if_false]
      exact ih hcons.2 hin

/-- Merging keeps every key once and every entry non-empty. -/
theorem mergeValutes_inv (valutes : List Valute) (m : Records)
    (h : (mapKeys m).Nodup ∧ ∀ e ∈ m, e.2 ≠ []) :
    (mapKeys (mergeValutes m valutes)).Nodup ∧ ∀ e ∈ mergeValutes m valutes, e.2 ≠ [] := by
  induction valutes generalizing m with
  | nil => simpa [mergeValutes] using h
  | cons v rest ih =>
    have hstep : mergeValutes m (v :: rest)
        = mergeValutes (mapSet m v.CharCode (mapGet m v.CharCode ++ [v])) rest := rfl
    rw [hstep]
    apply ih
    refine ⟨nodup_mapKeys_mapSet m _ _ h.1, ?_⟩
    intro e he
    rcases mem_mapSet m _ _ e he with h1 | h1
    · exact h.2 e h1
    · rw [h1]
      simp

theorem runTasks_cons {ε : Type} (PF : String → Except ε Float64)
    (xmlDecode : String → Option ValCurs) (t : DayTask) (tasks : List DayTask) (m : Records) :
    runTasks PF xmlDecode (t :: tasks) m
      = runTasks PF xmlDecode tasks (fetchCurs PF xmlDecode t.http t.date m) := rfl

theorem runTasks_inv {ε : Type} (PF : String → Except ε Float64)
    (xmlDecode : String → Option ValCurs) (tasks : List DayTask) (m : Records)
    (h : (mapKeys m).Nodup ∧ ∀ e ∈ m, e.2 ≠ []) :
    (mapKeys (runTasks PF xmlDecode tasks m)).Nodup
      ∧ ∀ e ∈ runTasks PF xmlDecode tasks m, e.2 ≠ [] := by
  induction tasks generalizing m with
  | nil => simpa [runTasks] using h
  | cons t rest ih =>
    rw [runTasks_cons, fetchCurs_eq_merge]
    exact ih _ (mergeValutes_inv _ m h)

theorem mapGet_runTasks {ε : Type} (PF : String → Except ε Float64)
    (xmlDecode : String → Option ValCurs) (tasks : List DayTask) (m : Records) (c : String) :
    mapGet (runTasks PF xmlDecode tasks m) c
      = mapGet m c
        ++ (tasks.flatMap (fetched PF xmlDecode)).filter (fun v => decide (v.CharCode = c)) := by
  induction tasks generalizing m with
  | nil => simp [runTasks, mapGet]
  | cons t rest ih =>
    rw [runTasks_cons, ih, fetchCurs_eq_merge, mapGet_mergeValutes]
    simp [List.flatMap_cons, List.filter_append, List.append_assoc]

theorem summarize_eq_some (nowDate startDate code : String) (rates : List Valute)
    (line : SummaryLine) (h : summarize nowDate startDate code rates = some line) :
    rates ≠ [] ∧ line.charCode = code := by
  cases rates with
  | nil => simp [summarize] at h
  | cons r rs =>
    simp only [summarize, Option.some.injEq] at h
    subst h
    simp

theorem mapGet_foldl_merge (docs : List (List Valute)) (m : Records) (c : String) :
    mapGet (docs.foldl mergeValutes m) c
      = mapGet m c ++ docs.flatten.filter (fun v => decide (v.CharCode = c)) := by
  induction docs generalizing m with
  | nil => simp
  | cons d rest ih =>
    rw [List.foldl_cons, ih, mapGet_mergeValutes]
    simp [List.filter_append, List.append_assoc]

theorem length_filter_flatten (docs : List (List Valute)) (p : Valute → Bool) :
    (docs.flatten.filter p).length = (docs.map (fun d => d.countP p)).sum := by
  induction docs with
  | nil => simp
  | cons d rest ih =>
    rw [List.flatten_cons, List.filter_append, List.length_append, ih, List.map_cons,
      List.sum_cons, List.countP_eq_length_filter]

/-! ## Claims on `fetchCurs` and the merge -/

/-- Claim C4: when the Value text or the VunitRate text of any record of the
decoded document fails to parse, `fetchCurs` returns the map it was given,
unchanged. -/
theorem fetchCurs_all_or_nothing {ε : Type} (PF : String → Except ε Float64)
    (xmlDecode : String → Option ValCurs) (http : String → Exchange) (date : String)
    (m : Records) (status : Nat) (body : String) (curs : ValCurs)
    (hresp : http (requestURL date) = .answered status body)
    (hdec : xmlDecode body = some curs)
    (hbad : ∃ v ∈ curs.Valutes, (∃ e, parseFloat PF v.ValueStr = .error e)
      ∨ (∃ e, parseFloat PF v.VunitStr = .error e)) :
    fetchCurs PF xmlDecode http date m = m := by
  unfold fetchCurs
  simp [hresp, hdec, parseValutes_none_of_error PF date curs.Valutes hbad]

/-- Witness for claim C4: the second record of the `mixed` document does not
parse, and the earlier observation in the map is all that remains. -/
theorem fetchCurs_all_or_nothing_witness :
    fetchCurs sampleParseFloat sampleDecode (fun _ => Exchange.answered 200 "mixed")
        "02/03/2024" [("USD", [obs "USD" rate93_5 "01/03/2024"])]
      = [("USD", [obs "USD" rate93_5 "01/03/2024"])] :=
  fetchCurs_all_or_nothing sampleParseFloat sampleDecode
    (fun _ => Exchange.answered 200 "mixed") "02/03/2024"
    [("USD", [obs "USD" rate93_5 "01/03/2024"])] 200 "mixed"
    { Date := "02.03.2024",
      Valutes := [sampleRecord "USD" "93,5", sampleRecord "EUR" "n/a"] }
    rfl rfl
    ⟨sampleRecord "EUR" "n/a", by simp, Or.inl ⟨"n/a", rfl⟩⟩

/-- Claim C8: every observation `fetchCurs` adds for a document that parses
carries the requested date, whatever dates the document and its records held. -/
theorem fetchCurs_stamps_requested_date {ε : Type} (PF : String → Except ε Float64)
    (xmlDecode : String → Option ValCurs) (http : String → Exchange) (date : String)
    (m : Records) (status : Nat) (body : String) (curs : ValCurs)
    (hresp : http (requestURL date) = .answered status body)
    (hdec : xmlDecode body = some curs)
    (hok : ∀ v ∈ curs.Valutes, (∃ x, parseFloat PF v.ValueStr = .ok x)
      ∧ (∃ y, parseFloat PF v.VunitStr = .ok y)) :
    ∃ added : List Valute,
      added.map Valute.CharCode = curs.Valutes.map Valute.CharCode
      ∧ (∀ c, mapGet (fetchCurs PF xmlDecode http date m) c
            = mapGet m c ++ added.filter (fun v => decide (v.CharCode = c)))
      ∧ ∀ v ∈ added, v.Date = date := by
  obtain ⟨out, hout⟩ := parseValutes_some_of_ok PF date curs.Valutes hok
  obtain ⟨_, hcodes, hdates⟩ := parseValutes_spec PF date curs.Valutes out hout
  refine ⟨out, hcodes, ?_, hdates⟩
  intro c
  have hrun : fetchCurs PF xmlDecode http date m = mergeValutes m out := by
    unfold fetchCurs
    simp [hresp, hdec, hout]
  rw [hrun, mapGet_mergeValutes]

/-- Witness for claim C8: the `usd` document, published under another date and
holding a record with an empty date, requested for 02/03/2024. -/
theorem fetchCurs_stamps_requested_date_witness :
    ∃ added : List Valute,
      added.map Valute.CharCode = [sampleRecord "USD" "93,5"].map Valute.CharCode
      ∧ (∀ c, mapGet (fetchCurs sampleParseFloat sampleDecode
              (fun _ => Exchange.answered 200 "usd") "02/03/2024" []) c
            = mapGet [] c ++ added.filter (fun v => decide (v.CharCode = c)))
      ∧ ∀ v ∈ added, v.Date = "02/03/2024" :=
  fetchCurs_stamps_requested_date sampleParseFloat sampleDecode
    (fun _ => Exchange.answered 200 "usd") "02/03/2024" [] 200 "usd"
    { Date := "02.03.2024", Valutes := [sampleRecord "USD" "93,5"] } rfl rfl
    (by
      intro v hv
      simp only [List.mem_singleton] at hv
      subst hv
      exact ⟨⟨rate93_5, rfl⟩, ⟨rate93_5, rfl⟩⟩)

/-- Counterexample to claim C10: the provider answers with status 500 and a
well-formed body; `fetchCurs` merges the record of that body. -/
theorem fetchCurs_merges_non_success_response :
    isSuccessStatus 500 = false
      ∧ fetchCurs sampleParseFloat sampleDecode (fun _ => Exchange.answered 500 "usd")
          "02/03/2024" []
        = [("USD", [{ sampleRecord "USD" "93,5" with
                      Value := rate93_5, VunitRate := rate93_5, Date := "02/03/2024" }])] := by
  constructor
  · decide
  · rfl

/-- Claim C10 as amended: `fetchCurs` adds nothing when the request cannot be
built, the transport fails or the body cannot be read, and it treats an answered
request the same way whatever the status code of the response. -/
theorem fetchCurs_ignores_status {ε : Type} (PF : String → Except ε Float64)
    (xmlDecode : String → Option ValCurs) (http : String → Exchange) (date : String)
    (m : Records) :
    (∀ s, fetchCurs PF xmlDecode (fun url => (http url).withStatus s) date m
        = fetchCurs PF xmlDecode http date m)
      ∧ ((∀ status body, http (requestURL date) ≠ .answered status body) →
          fetchCurs PF xmlDecode http date m = m) := by
  constructor
  · intro s
    unfold fetchCurs
    cases h : http (requestURL date) <;> simp [Exchange.withStatus, h]
  · intro hno
    unfold fetchCurs
    cases h : http (requestURL date) with
    | answered status body => exact absurd h (hno status body)
    | requestError => simp
    | transportError => simp
    | readError s => simp

/-- Witness for amended claim C10: status 200 and status 500 give the same map
for the `usd` body, and a transport failure leaves the map as it was. -/
theorem fetchCurs_ignores_status_witness :
    fetchCurs sampleParseFloat sampleDecode
          (fun url => ((fun _ => Exchange.answered 200 "usd") url).withStatus 500)
          "02/03/2024" []
        = fetchCurs sampleParseFloat sampleDecode (fun _ => Exchange.answered 200 "usd")
            "02/03/2024" []
      ∧ fetchCurs sampleParseFloat sampleDecode (fun _ => Exchange.transportError)
            "02/03/2024" [("USD", [obs "USD" rate93_5 "01/03/2024"])]
          = [("USD", [obs "USD" rate93_5 "01/03/2024"])] :=
  ⟨(fetchCurs_ignores_status sampleParseFloat sampleDecode
      (fun _ => Exchange.answered 200 "usd") "02/03/2024" []).1 500,
   (fetchCurs_ignores_status sampleParseFloat sampleDecode
      (fun _ => Exchange.transportError) "02/03/2024"
      [("USD", [obs "USD" rate93_5 "01/03/2024"])]).2
      (by intro status body h; cases h)⟩

/-- Claim C5: in a map built from the empty map by any sequence of `fetchCurs`
calls every entry is non-empty, the summary loop prints a line for a currency
code only if some call merged an observation with that code, and an entry with
an empty list produces no line. -/
theorem summaryLoop_only_observed {ε : Type} (PF : String → Except ε Float64)
    (xmlDecode : String → Option ValCurs) (tasks : List DayTask)
    (nowDate startDate : String) :
    (∀ e ∈ runTasks PF xmlDecode tasks [], e.2 ≠ [])
      ∧ (∀ line ∈ summaryLoop nowDate startDate (runTasks PF xmlDecode tasks []),
          ∃ t ∈ tasks, ∃ v ∈ fetched PF xmlDecode t, v.CharCode = line.charCode)
      ∧ (∀ (m : Records) (k : String),
          summaryLoop nowDate startDate ((k, []) :: m) = summaryLoop nowDate startDate m) := by
  have hinv := runTasks_inv PF xmlDecode tasks [] ⟨by simp [mapKeys], by simp⟩
  refine ⟨hinv.2, ?_, ?_⟩
  · intro line hline
    obtain ⟨e, he, hsum⟩ := List.mem_filterMap.mp hline
    obtain ⟨hne, hcode⟩ := summarize_eq_some nowDate startDate e.1 e.2 line hsum
    have hget : mapGet (runTasks PF xmlDecode tasks []) e.1 = e.2 :=
      mapGet_of_mem _ e.1 e.2 hinv.1 he
    rw [mapGet_runTasks] at hget
    simp only [mapGet, List.nil_append] at hget
    obtain ⟨v, hv⟩ := List.exists_mem_of_ne_nil _ (hget ▸ hne)
    obtain ⟨hv1, hv2⟩ := List.mem_filter.mp hv
    obtain ⟨t, ht, hvt⟩ := List.mem_flatMap.mp hv1
    refine ⟨t, ht, v, hvt, ?_⟩
    rw [hcode]
    simpa using hv2
  · intro m k
    simp [summaryLoop, summarize]

/-- Witness for claim C5: one answered day and one failed day; the only line is
the one for `USD`, and an added empty entry for `EUR` changes nothing. -/
theorem summaryLoop_only_observed_witness :
    (∀ line ∈ summaryLoop "03/03/2024" "01/03/2024"
        (runTasks sampleParseFloat sampleDecode
          [⟨"01/03/2024", fun _ => Exchange.answered 200 "usd"⟩,
           ⟨"02/03/2024", fun _ => Exchange.transportError⟩] []),
      ∃ t ∈ [(⟨"01/03/2024", fun _ => Exchange.answered 200 "usd"⟩ : DayTask),
             ⟨"02/03/2024", fun _ => Exchange.transportError⟩],
        ∃ v ∈ fetched sampleParseFloat sampleDecode t, v.CharCode = line.charCode)
      ∧ summaryLoop "03/03/2024" "01/03/2024"
          (("EUR", []) :: [("USD", [obs "USD" rate93_5 "01/03/2024"])])
        = summaryLoop "03/03/2024" "01/03/2024" [("USD", [obs "USD" rate93_5 "01/03/2024"])] :=
  ⟨(summaryLoop_only_observed sampleParseFloat sampleDecode
      [⟨"01/03/2024", fun _ => Exchange.answered 200 "usd"⟩,
       ⟨"02/03/2024", fun _ => Exchange.transportError⟩] "03/03/2024" "01/03/2024").2.1,
   (summaryLoop_only_observed sampleParseFloat sampleDecode [] "03/03/2024" "01/03/2024").2.2
      [("USD", [obs "USD" rate93_5 "01/03/2024"])] "EUR"⟩

/-- Claim C9: whatever the order in which the merges of a collection of parsed
day documents are applied to the empty map, the entry of a currency code has as
many observations as the documents hold records with that code, and it holds
those records up to order. -/
theorem merge_order_irrelevant (docs schedule : List (List Valute)) (c : String)
    (h : schedule.Perm docs) :
    (mapGet (schedule.foldl mergeValutes []) c).length
        = (docs.map (fun d => d.countP (fun v => decide (v.CharCode = c)))).sum
      ∧ (mapGet (schedule.foldl mergeValutes []) c).Perm
          (docs.flatten.filter (fun v => decide (v.CharCode = c))) := by
  have hperm : (mapGet (schedule.foldl mergeValutes []) c).Perm
      (docs.flatten.filter (fun v => decide (v.CharCode = c))) := by
    rw [mapGet_foldl_merge]
    simp only [mapGet, List.nil_append]
    exact (List.Perm.flatten h).filter _
  refine ⟨?_, hperm⟩
  rw [hperm.length_eq, length_filter_flatten]

/-- Witness for claim C9: two day documents merged in the reverse order. -/
theorem merge_order_irrelevant_witness :
    (mapGet (([[obs "USD" (Float64.ofInt 2) "02/03/2024"],
              [obs "USD" (Float64.ofInt 1) "01/03/2024", obs "EUR" (Float64.ofInt 3) "01/03/2024"]]
              : List (List Valute)).foldl mergeValutes []) "USD").length
        = (([[obs "USD" (Float64.ofInt 1) "01/03/2024", obs "EUR" (Float64.ofInt 3) "01/03/2024"],
             [obs "USD" (Float64.ofInt 2) "02/03/2024"]] : List (List Valute)).map
            (fun d => d.countP (fun v => decide (v.CharCode = "USD")))).sum
      ∧ (mapGet (([[obs "USD" (Float64.ofInt 2) "02/03/2024"],
              [obs "USD" (Float64.ofInt 1) "01/03/2024", obs "EUR" (Float64.ofInt 3) "01/03/2024"]]
              : List (List Valute)).foldl mergeValutes []) "USD").Perm
          (([[obs "USD" (Float64.ofInt 1) "01/03/2024", obs "EUR" (Float64.ofInt 3) "01/03/2024"],
             [obs "USD" (Float64.ofInt 2) "02/03/2024"]] : List (List Valute)).flatten.filter
            (fun v => decide (v.CharCode = "USD"))) :=
  merge_order_irrelevant
    [[obs "USD" (Float64.ofInt 1) "01/03/2024", obs "EUR" (Float64.ofInt 3) "01/03/2024"], [obs "USD" (Float64.ofInt 2) "02/03/2024"]]
    [[obs "USD" (Float64.ofInt 2) "02/03/2024"], [obs "USD" (Float64.ofInt 1) "01/03/2024", obs "EUR" (Float64.ofInt 3) "01/03/2024"]]
    "USD" (List.Perm.swap _ _ [])

/-! ## The day loop -/

theorem lookup_fixed (off sec : Int) :
    Location.lookup { first := off, tx := [] } sec = (off, alpha, omega) := rfl

theorem Date_fixed (off wall : Int) (nsec : Nat) :
    Date wall nsec { first := off, tx := [] }
      = { unix := wall - off, nsec := nsec, loc := { first := off, tx := [] } } := by
  unfold Date
  simp only [lookup_fixed]
  by_cases h : off = 0
  · simp [h]
  · simp [h]

theorem AddDate_fixed (off : Int) (t : Time) (k : Int)
    (h : t.loc = { first := off, tx := [] }) :
    t.AddDate k
      = { unix := t.unix + 86400 * k, nsec := t.nsec, loc := { first := off, tx := [] } } := by
  unfold Time.AddDate Time.wall
  rw [h, Date_fixed, lookup_fixed]
  congr 1
  simp only
  ring

theorem dayLoop_fixed (off : Int) (n : Nat) (fuel : Nat) (now d : Time)
    (hfuel : n < fuel) (hloc : d.loc = { first := off, tx := [] })
    (hn : d.nsec = now.nsec) (hd : now.unix = d.unix + 86400 * (n : Int)) :
    dayLoop fuel now d
      = some ((List.range n).map (fun (i : Nat) =>
          ({ unix := d.unix + 86400 * (i : Int), nsec := d.nsec,
             loc := { first := off, tx := [] } } : Time))) := by
  induction n generalizing fuel d with
  | zero =>
    cases fuel with
    | zero => omega
    | succ f =>
      have hb : d.Before now = false := by
        simp [Time.Before, hn]
        omega
      simp [dayLoop, hb]
  | succ k ih =>
    cases fuel with
    | zero => omega
    | succ f =>
      have hb : d.Before now = true := by
        simp [Time.Before]
        omega
      have hstep := AddDate_fixed off d 1 hloc
      have hrec := ih f (d.AddDate 1) (by omega) (by rw [hstep])
        (by rw [hstep]; exact hn) (by rw [hstep]; simp only; push_cast at hd; omega)
      simp only [dayLoop, hb, if_true, hrec, Option.map_some', Option.some.injEq]
      rw [List.range_succ_eq_map, List.map_cons, List.map_map]
      refine congrArg₂ _ ?_ ?_
      · cases d
        simp only at hloc
        subst hloc
        simp
      · apply List.map_congr_left
        intro i _
        rw [hstep]
        simp only [Function.comp, Nat.succ_eq_add_one]
        congr 1
        push_cast
        ring

/-- The part of claim C6 that the code satisfies: in a location whose UTC offset
never changes the loop of `main` ends and runs for exactly `IntervalLength = 90`
values of `d`, one per calendar day from 90 days before today to yesterday. -/
theorem mainDays_fixed_offset (off : Int) (now : Time) (fuel : Nat)
    (hloc : now.loc = { first := off, tx := [] }) (hfuel : 90 < fuel) :
    mainDays fuel now
        = some ((List.range 90).map (fun (i : Nat) =>
            ({ unix := now.unix - 86400 * 90 + 86400 * (i : Int), nsec := now.nsec,
               loc := { first := off, tx := [] } } : Time)))
      ∧ (mainDays fuel now).map (List.map Time.civilDay)
        = some ((List.range 90).map (fun (i : Nat) => now.civilDay - 90 + (i : Int))) := by
  have hstart := AddDate_fixed off now (-(IntervalLength : Int)) hloc
  have hmain : mainDays fuel now
      = some ((List.range 90).map (fun (i : Nat) =>
          ({ unix := now.unix - 86400 * 90 + 86400 * (i : Int), nsec := now.nsec,
             loc := { first := off, tx := [] } } : Time))) := by
    have h := dayLoop_fixed off 90 fuel now (now.AddDate (-(IntervalLength : Int))) hfuel
      (by rw [hstart]) (by rw [hstart])
      (by rw [hstart]; simp only [IntervalLength]; push_cast; omega)
    rw [mainDays, h, hstart]
    simp only [IntervalLength, Option.some.injEq]
    apply List.map_congr_left
    intro i _
    congr 1
  refine ⟨hmain, ?_⟩
  rw [hmain]
  simp only [Option.map_some', List.map_map, Option.some.injEq]
  apply List.map_congr_left
  intro i _
  simp only [Function.comp, Time.civilDay, Time.wall, hloc, lookup_fixed]
  omega

theorem dayLoop_mono (fuel k : Nat) (now d : Time) (l : List Time)
    (h : dayLoop fuel now d = some l) : dayLoop (fuel + k) now d = some l := by
  induction fuel generalizing d l with
  | zero => simp [dayLoop] at h
  | succ f ih =>
    rw [Nat.add_right_comm]
    by_cases hb : d.Before now = true
    · simp only [dayLoop, hb, if_true, Option.map_eq_some'] at h ⊢
      obtain ⟨l1, h1, h2⟩ := h
      exact ⟨l1, ih _ _ h1, h2⟩
    · simp only [dayLoop, hb, if_false] at h ⊢
      exact h

/-- Claim C6, evaluation at the failing input.  In New York, started on
2024-04-01 at 02:30, the loop ends and has run for 91 days, from 2024-01-02
(day 19724) to 2024-04-01 (day 19814), today included: 02:30 does not exist on
2024-03-10, so `AddDate` yields 01:30 there and keeps 01:30 afterwards, which is
before `now` on the last day.  In Santiago, started on 2024-10-01 at 00:30, the
loop also runs 91 times and 2024-09-07 (day 19973) comes twice.  The loop tests
its condition 92 times; more fuel changes nothing. -/
theorem mainDays_daylight_saving :
    (∀ k : Nat, (mainDays (92 + k) newYorkNow).map (List.map Time.civilDay)
        = some ((List.range 91).map (fun (i : Nat) => (19724 : Int) + (i : Int))))
      ∧ newYorkNow.civilDay = 19814
      ∧ (∀ k : Nat, (mainDays (92 + k) santiagoNow).map (List.map Time.civilDay)
        = some ((List.range 67).map (fun (i : Nat) => (19907 : Int) + (i : Int))
            ++ (List.range 24).map (fun (i : Nat) => (19973 : Int) + (i : Int)))) := by
  have hny : (mainDays 92 newYorkNow).map (List.map Time.civilDay)
      = some ((List.range 91).map (fun (i : Nat) => (19724 : Int) + (i : Int))) := by
    decide
  have hst : (mainDays 92 santiagoNow).map (List.map Time.civilDay)
      = some ((List.range 67).map (fun (i : Nat) => (19907 : Int) + (i : Int))
          ++ (List.range 24).map (fun (i : Nat) => (19973 : Int) + (i : Int))) := by
    decide
  refine ⟨?_, by decide, ?_⟩
  · intro k
    obtain ⟨l, h1, h2⟩ := Option.map_eq_some'.mp hny
    rw [mainDays, dayLoop_mono 92 k _ _ l h1, Option.map_some', h2]
  · intro k
    obtain ⟨l, h1, h2⟩ := Option.map_eq_some'.mp hst
    rw [mainDays, dayLoop_mono 92 k _ _ l h1, Option.map_some', h2]

/-- In a zone fixed at UTC+3, started on 2024-04-01 at 02:30, the loop runs for
the 90 days from 2024-01-02 (day 19724) to 2024-03-31 (day 19813). -/
theorem mainDays_fixed_offset_example :
    mainDays 100 fixedNow
        = some ((List.range 90).map (fun (i : Nat) =>
            ({ unix := fixedNow.unix - 86400 * 90 + 86400 * (i : Int), nsec := fixedNow.nsec,
               loc := { first := 10800, tx := [] } } : Time)))
      ∧ (mainDays 100 fixedNow).map (List.map Time.civilDay)
        = some ((List.range 90).map (fun (i : Nat) => fixedNow.civilDay - 90 + (i : Int)))
      ∧ fixedNow.civilDay = 19814 :=
  ⟨(mainDays_fixed_offset 10800 fixedNow 100 rfl (by decide)).1,
   (mainDays_fixed_offset 10800 fixedNow 100 rfl (by decide)).2, by decide⟩

/-! ## Claims on `parseFloat` and the summary loop -/

theorem stringsReplace_idem (s : String) :
    stringsReplace (stringsReplace s ',' '.') ',' '.' = stringsReplace s ',' '.' := by
  unfold stringsReplace
  congr 1
  simp only [List.map_map]
  apply List.map_congr_left
  intro c _
  by_cases hc : c = ','
  · simp [Function.comp, hc]
  · simp [Function.comp, hc]

theorem stringsReplace_of_not_mem (s : String) (h : ',' ∉ s.data) :
    stringsReplace s ',' '.' = s := by
  unfold stringsReplace
  have hmap : s.data.map (fun c => if c = ',' then '.' else c) = s.data := by
    conv_rhs => rw [← List.map_id s.data]
    apply List.map_congr_left
    intro c hc
    have : c ≠ ',' := fun hEq => h (hEq ▸ hc)
    simp [this]
  rw [hmap]

/-- Claim C7: `parseFloat` gives the same result, value or error, on a text and
on the text with every comma replaced by a period; normalising twice is the same
as normalising once; a text without a comma goes to the library parser as it is;
`93,5` and `93.5` give the same result, which is 93.5 whenever the library
parser reads `93.5` as 93.5 (`rate93_5`). -/
theorem parseFloat_separator_insensitive {ε : Type} (PF : String → Except ε Float64) :
    (∀ s, parseFloat PF (stringsReplace s ',' '.') = parseFloat PF s)
      ∧ (∀ s, stringsReplace (stringsReplace s ',' '.') ',' '.' = stringsReplace s ',' '.')
      ∧ (∀ s, ',' ∉ s.data → parseFloat PF s = PF s)
      ∧ parseFloat PF "93,5" = parseFloat PF "93.5"
      ∧ (PF "93.5" = .ok rate93_5 →
          parseFloat PF "93,5" = .ok rate93_5 ∧ parseFloat PF "93.5" = .ok rate93_5) := by
  refine ⟨?_, stringsReplace_idem, ?_, ?_, ?_⟩
  · intro s
    unfold parseFloat
    rw [stringsReplace_idem]
  · intro s hs
    unfold parseFloat
    rw [stringsReplace_of_not_mem s hs]
  · rfl
  · intro h
    exact ⟨h, h⟩

/-- Witness for claim C7: with the sample parser both spellings give 93.5. -/
theorem parseFloat_separator_insensitive_witness :
    parseFloat sampleParseFloat "93,5" = .ok rate93_5
      ∧ parseFloat sampleParseFloat "93.5" = .ok rate93_5 :=
  (parseFloat_separator_insensitive sampleParseFloat).2.2.2.2 rfl

/-! ### The inner loop of the summary -/

theorem summaryStep_sumRate (a : Acc) (r : Valute) :
    (summaryStep a r).sumRate = Float64.add a.sumRate r.Value := by
  unfold summaryStep
  by_cases h1 : Float64.lt r.Value a.minRate = true <;>
    by_cases h2 : Float64.lt a.maxRate r.Value = true <;> simp [h1, h2]

theorem foldl_summaryStep_sumRate (rates : List Valute) (a : Acc) :
    (rates.foldl summaryStep a).sumRate
      = rates.foldl (fun s r => Float64.add s r.Value) a.sumRate := by
  induction rates generalizing a with
  | nil => simp
  | cons r rs ih =>
    rw [List.foldl_cons, ih, summaryStep_sumRate, List.foldl_cons]

theorem summarize_of_ne_nil (nowDate startDate code : String) (rates : List Valute)
    (h : rates ≠ []) :
    ∃ first, rates.head? = some first
      ∧ summarize nowDate startDate code rates
        = some { Name := first.Name, charCode := code,
                 maxRate := (rates.foldl summaryStep (initAcc nowDate startDate)).maxRate,
                 maxRateDate := (rates.foldl summaryStep (initAcc nowDate startDate)).maxRateDate,
                 minRate := (rates.foldl summaryStep (initAcc nowDate startDate)).minRate,
                 minRateDate := (rates.foldl summaryStep (initAcc nowDate startDate)).minRateDate,
                 avgRate := Float64.div
                   (rates.foldl summaryStep (initAcc nowDate startDate)).sumRate
                   (Float64.ofInt (rates.length : Int)) } := by
  cases rates with
  | nil => exact absurd rfl h
  | cons r rs => exact ⟨r, rfl, rfl⟩

/-- Claim C1, evaluation at the failing input: for a list whose only value is
-1.5 the loop reports the maximum 0, which no observation carries, on the
placeholder date `startDate`; for a list whose only value is 0 it reports the
date `startDate` instead of the date of the observation. -/
theorem summarize_max_nonpositive :
    summarize "04/03/2024" "05/12/2023" "XDR" [obs "XDR" (.fin true 3 (-1)) "01/03/2024"]
        = some { Name := "XDR", charCode := "XDR",
                 maxRate := Float64.zero, maxRateDate := "05/12/2023",
                 minRate := .fin true 3 (-1), minRateDate := "01/03/2024",
                 avgRate := .fin true 3 (-1) }
      ∧ summarize "04/03/2024" "05/12/2023" "XDR" [obs "XDR" Float64.zero "01/03/2024"]
        = some { Name := "XDR", charCode := "XDR",
                 maxRate := Float64.zero, maxRateDate := "05/12/2023",
                 minRate := Float64.zero, minRateDate := "01/03/2024",
                 avgRate := Float64.zero } := by
  decide

/-- Claim C2, evaluation at the failing input: for a list whose only value is
`math.MaxFloat64` the loop reports the placeholder date `now` as the date of the
minimum instead of the date of the observation. -/
theorem summarize_min_maxFloat :
    summarize "04/03/2024" "05/12/2023" "XDR" [obs "XDR" MaxFloat64 "01/03/2024"]
      = some { Name := "XDR", charCode := "XDR",
               maxRate := MaxFloat64, maxRateDate := "01/03/2024",
               minRate := MaxFloat64, minRateDate := "04/03/2024",
               avgRate := MaxFloat64 } := by
  decide

/-- Counterexample to claim C3: for the values 10^16, 1 and 1 the two additions
of 1 are rounded away and the loop reports the average 3333333333333333.5, while
the sum of the three values divided by their number is 3333333333333334. -/
theorem summarize_avgRate_rounds :
    summarize "04/03/2024" "05/12/2023" "XDR"
        [obs "XDR" (Float64.ofInt 10000000000000000) "01/03/2024",
         obs "XDR" (Float64.ofInt 1) "02/03/2024",
         obs "XDR" (Float64.ofInt 1) "03/03/2024"]
      = some { Name := "XDR", charCode := "XDR",
               maxRate := Float64.ofInt 10000000000000000, maxRateDate := "01/03/2024",
               minRate := Float64.ofInt 1, minRateDate := "02/03/2024",
               avgRate := .fin false 6666666666666667 (-1) }
      ∧ (Float64.ofInt 10000000000000000).toRat = some 10000000000000000
      ∧ (Float64.ofInt 1).toRat = some 1
      ∧ (Float64.fin false 6666666666666667 (-1)).toRat = some (6666666666666667 / 2)
      ∧ ((10000000000000000 + 1 + 1 : ℚ) / 3 ≠ 6666666666666667 / 2) := by
  have h1 : Float64.ofInt 10000000000000000 = .fin false 152587890625 16 := by decide
  have h2 : Float64.ofInt 1 = .fin false 1 0 := by decide
  refine ⟨by decide, ?_, ?_, ?_, ?_⟩
  · rw [h1]
    simp only [Float64.toRat]
    norm_num
  · rw [h2]
    simp only [Float64.toRat]
    norm_num
  · simp only [Float64.toRat]
    norm_num
  · norm_num

/-- Claim C3 as amended: for a non-empty list the reported average is the
`float64` quotient of the `float64` sum of the values, added from left to right
starting from 0, by the number of observations converted to `float64`. -/
theorem summarize_avgRate_float (nowDate startDate code : String) (rates : List Valute)
    (h : rates ≠ []) :
    ∃ line, summarize nowDate startDate code rates = some line
      ∧ line.avgRate
        = Float64.div (rates.foldl (fun s r => Float64.add s r.Value) Float64.zero)
            (Float64.ofInt (rates.length : Int)) := by
  obtain ⟨first, _, hsum⟩ := summarize_of_ne_nil nowDate startDate code rates h
  refine ⟨_, hsum, ?_⟩
  simp only
  rw [foldl_summaryStep_sumRate]
  rfl

/-- Witness for amended claim C3: the `float64` values nearest to 1.10 and
1.12. -/
theorem summarize_avgRate_float_witness :
    ∃ line, summarize "04/03/2024" "05/12/2023" "EUR"
          [obs "EUR" (Float64.roundRatio false 110 100 0) "01/03/2024",
           obs "EUR" (Float64.roundRatio false 112 100 0) "03/03/2024"] = some line
      ∧ line.avgRate
        = Float64.div
            (([obs "EUR" (Float64.roundRatio false 110 100 0) "01/03/2024",
               obs "EUR" (Float64.roundRatio false 112 100 0) "03/03/2024"] : List Valute).foldl
              (fun s r => Float64.add s r.Value) Float64.zero)
            (Float64.ofInt
              (([obs "EUR" (Float64.roundRatio false 110 100 0) "01/03/2024",
                 obs "EUR" (Float64.roundRatio false 112 100 0) "03/03/2024"]
                 : List Valute).length : Int)) :=
  summarize_avgRate_float "04/03/2024" "05/12/2023" "EUR"
    [obs "EUR" (Float64.roundRatio false 110 100 0) "01/03/2024",
     obs "EUR" (Float64.roundRatio false 112 100 0) "03/03/2024"] (by simp)

/-- The examples of the specification, with every decimal replaced by the
nearest `float64`: 90.1, 95.3 and 92.0 on three days give maximum 95.3 on the
second day and minimum 90.1 on the first day; 1.10 and 1.12 give minimum 1.10,
maximum 1.12 and as average the `float64` nearest to 1.11. -/
theorem summarize_examples :
    (summarize "04/03/2024" "05/12/2023" "USD"
        [obs "USD" (Float64.roundRatio false 901 10 0) "01/03/2024",
         obs "USD" (Float64.roundRatio false 953 10 0) "02/03/2024",
         obs "USD" (Float64.roundRatio false 92 1 0) "03/03/2024"]).map
        (fun l => (l.maxRate, l.maxRateDate, l.minRate, l.minRateDate))
      = some (Float64.roundRatio false 953 10 0, "02/03/2024",
              Float64.roundRatio false 901 10 0, "01/03/2024")
      ∧ summarize "04/03/2024" "05/12/2023" "EUR"
          [obs "EUR" (Float64.roundRatio false 110 100 0) "01/03/2024",
           obs "EUR" (Float64.roundRatio false 112 100 0) "03/03/2024"]
        = some { Name := "EUR", charCode := "EUR",
                 maxRate := Float64.roundRatio false 112 100 0, maxRateDate := "03/03/2024",
                 minRate := Float64.roundRatio false 110 100 0, minRateDate := "01/03/2024",
                 avgRate := Float64.roundRatio false 111 100 0 } := by
  decide

/-- Two observations of `math.MaxFloat64`: the sum overflows, and the reported
average is positive infinity. -/
theorem summarize_avgRate_overflow :
    (summarize "04/03/2024" "05/12/2023" "XDR"
        [obs "XDR" MaxFloat64 "01/03/2024", obs "XDR" MaxFloat64 "02/03/2024"]).map
        (fun l => l.avgRate)
      = some (Float64.inf false) := by
  decide

/-! ### The extrema on finite values -/

theorem signed_cast (neg : Bool) (m : Nat) (e emin : Int) (h : emin ≤ e) :
    ((Float64.signed neg m e emin : Int) : ℚ) * (2 : ℚ) ^ emin
      = (if neg then -1 else 1) * (m : ℚ) * (2 : ℚ) ^ e := by
  have hpow : ((2 : ℚ) ^ (e - emin).toNat) * (2 : ℚ) ^ emin = (2 : ℚ) ^ e := by
    rw [← zpow_natCast, Int.toNat_of_nonneg (by omega), ← zpow_add₀ (by norm_num)]
    congr 1
    omega
  unfold Float64.signed
  cases neg
  · simp only [Bool.false_eq_true, if_false]
    push_cast
    rw [mul_assoc, hpow]
    ring
  · simp only [if_true]
    push_cast
    rw [neg_mul, mul_assoc, hpow]
    ring

theorem lt_iff_value (a b : Float64) (ha : a.isFinite = true) (hb : b.isFinite = true) :
    Float64.lt a b = true ↔ a.value < b.value := by
  cases a with
  | nan => simp [Float64.isFinite] at ha
  | inf _ => simp [Float64.isFinite] at ha
  | fin na ma ea =>
    cases b with
    | nan => simp [Float64.isFinite] at hb
    | inf _ => simp [Float64.isFinite] at hb
    | fin nb mb eb =>
      have h1 := signed_cast na ma ea (min ea eb) (min_le_left _ _)
      have h2 := signed_cast nb mb eb (min ea eb) (min_le_right _ _)
      have hpos : (0 : ℚ) < (2 : ℚ) ^ (min ea eb) := zpow_pos (by norm_num) _
      simp only [Float64.lt, decide_eq_true_eq, Float64.value, Float64.toRat, Option.getD_some]
      rw [← h1, ← h2, mul_lt_mul_right hpos]
      exact Int.cast_lt.symm

theorem summaryStep_maxRate (a : Acc) (r : Valute) :
    (summaryStep a r).maxRate
        = (if Float64.lt a.maxRate r.Value = true then r.Value else a.maxRate)
      ∧ (summaryStep a r).maxRateDate
        = (if Float64.lt a.maxRate r.Value = true then r.Date else a.maxRateDate) := by
  unfold summaryStep
  by_cases h1 : Float64.lt r.Value a.minRate = true <;>
    by_cases h2 : Float64.lt a.maxRate r.Value = true <;> simp [h1, h2]

theorem summaryStep_minRate (a : Acc) (r : Valute) :
    (summaryStep a r).minRate
        = (if Float64.lt r.Value a.minRate = true then r.Value else a.minRate)
      ∧ (summaryStep a r).minRateDate
        = (if Float64.lt r.Value a.minRate = true then r.Date else a.minRateDate) := by
  unfold summaryStep
  by_cases h1 : Float64.lt r.Value a.minRate = true <;>
    by_cases h2 : Float64.lt a.maxRate r.Value = true <;> simp [h1, h2]

/-- Invariant of the maximum part of the inner loop on finite values: either no
value exceeded the initial `maxRate` and both variables are untouched, or
`maxRate` is the greatest value and `maxRateDate` the date of its first
occurrence. -/
theorem foldl_summaryStep_max (rates : List Valute) (a : Acc)
    (ha : a.maxRate.isFinite = true) (hr : ∀ r ∈ rates, r.Value.isFinite = true) :
    ((rates.foldl summaryStep a).maxRate = a.maxRate
        ∧ (rates.foldl summaryStep a).maxRateDate = a.maxRateDate
        ∧ ∀ r ∈ rates, r.Value.value ≤ a.maxRate.value)
      ∨ (a.maxRate.value < (rates.foldl summaryStep a).maxRate.value
        ∧ (∀ r ∈ rates, r.Value.value ≤ (rates.foldl summaryStep a).maxRate.value)
        ∧ ∃ v, rates.find? (fun r => decide (r.Value = (rates.foldl summaryStep a).maxRate))
                = some v
              ∧ v.Date = (rates.foldl summaryStep a).maxRateDate) := by
  induction rates generalizing a with
  | nil => left; simp
  | cons r rs ih =>
    rw [List.foldl_cons]
    obtain ⟨hm, hd⟩ := summaryStep_maxRate a r
    have hrfin : r.Value.isFinite = true := hr r (List.mem_cons_self _ _)
    have hrs : ∀ x ∈ rs, x.Value.isFinite = true := fun x hx => hr x (List.mem_cons_of_mem _ hx)
    by_cases hgt : Float64.lt a.maxRate r.Value = true
    · rw [if_pos hgt] at hm hd
      have hgtv : a.maxRate.value < r.Value.value := (lt_iff_value _ _ ha hrfin).mp hgt
      right
      rcases ih (summaryStep a r) (by rw [hm]; exact hrfin) hrs with
        ⟨h1, h2, h3⟩ | ⟨h1, h2, v, h3, h4⟩
      · rw [h1, h2, hm, hd]
        refine ⟨hgtv, ?_, r, by simp, rfl⟩
        intro x hx
        rcases List.mem_cons.mp hx with rfl | hx1
        · exact le_refl _
        · exact hm ▸ h3 x hx1
      · rw [hm] at h1
        refine ⟨lt_trans hgtv h1, ?_, v, ?_, h4⟩
        · intro x hx
          rcases List.mem_cons.mp hx with rfl | hx1
          · exact le_of_lt h1
          · exact h2 x hx1
        · rw [List.find?_cons]
          have : decide (r.Value = (rs.foldl summaryStep (summaryStep a r)).maxRate) = false := by
            rw [decide_eq_false_iff_not]
            intro hEq
            rw [← hEq] at h1
            exact lt_irrefl _ h1
          rw [this]
          exact h3
    · rw [if_neg hgt] at hm hd
      have hle : r.Value.value ≤ a.maxRate.value :=
        not_lt.mp (fun h => hgt ((lt_iff_value _ _ ha hrfin).mpr h))
      rcases ih (summaryStep a r) (by rw [hm]; exact ha) hrs with
        ⟨h1, h2, h3⟩ | ⟨h1, h2, v, h3, h4⟩
      · left
        rw [h1, h2, hm, hd]
        refine ⟨rfl, rfl, ?_⟩
        intro x hx
        rcases List.mem_cons.mp hx with rfl | hx1
        · exact hle
        · exact hm ▸ h3 x hx1
      · right
        rw [hm] at h1
        refine ⟨h1, ?_, v, ?_, h4⟩
        · intro x hx
          rcases List.mem_cons.mp hx with rfl | hx1
          · exact le_trans hle (le_of_lt h1)
          · exact h2 x hx1
        · rw [List.find?_cons]
          have : decide (r.Value = (rs.foldl summaryStep (summaryStep a r)).maxRate) = false := by
            rw [decide_eq_false_iff_not]
            intro hEq
            rw [← hEq] at h1
            exact lt_irrefl _ (lt_of_le_of_lt hle h1)
          rw [this]
          exact h3

/-- Invariant of the minimum part of the inner loop on finite values, the mirror
image of `foldl_summaryStep_max`. -/
theorem foldl_summaryStep_min (rates : List Valute) (a : Acc)
    (ha : a.minRate.isFinite = true) (hr : ∀ r ∈ rates, r.Value.isFinite = true) :
    ((rates.foldl summaryStep a).minRate = a.minRate
        ∧ (rates.foldl summaryStep a).minRateDate = a.minRateDate
        ∧ ∀ r ∈ rates, a.minRate.value ≤ r.Value.value)
      ∨ ((rates.foldl summaryStep a).minRate.value < a.minRate.value
        ∧ (∀ r ∈ rates, (rates.foldl summaryStep a).minRate.value ≤ r.Value.value)
        ∧ ∃ v, rates.find? (fun r => decide (r.Value = (rates.foldl summaryStep a).minRate))
                = some v
              ∧ v.Date = (rates.foldl summaryStep a).minRateDate) := by
  induction rates generalizing a with
  | nil => left; simp
  | cons r rs ih =>
    rw [List.foldl_cons]
    obtain ⟨hm, hd⟩ := summaryStep_minRate a r
    have hrfin : r.Value.isFinite = true := hr r (List.mem_cons_self _ _)
    have hrs : ∀ x ∈ rs, x.Value.isFinite = true := fun x hx => hr x (List.mem_cons_of_mem _ hx)
    by_cases hlt : Float64.lt r.Value a.minRate = true
    · rw [if_pos hlt] at hm hd
      have hltv : r.Value.value < a.minRate.value := (lt_iff_value _ _ hrfin ha).mp hlt
      right
      rcases ih (summaryStep a r) (by rw [hm]; exact hrfin) hrs with
        ⟨h1, h2, h3⟩ | ⟨h1, h2, v, h3, h4⟩
      · rw [h1, h2, hm, hd]
        refine ⟨hltv, ?_, r, by simp, rfl⟩
        intro x hx
        rcases List.mem_cons.mp hx with rfl | hx1
        · exact le_refl _
        · exact hm ▸ h3 x hx1
      · rw [hm] at h1
        refine ⟨lt_trans h1 hltv, ?_, v, ?_, h4⟩
        · intro x hx
          rcases List.mem_cons.mp hx with rfl | hx1
          · exact le_of_lt h1
          · exact h2 x hx1
        · rw [List.find?_cons]
          have : decide (r.Value = (rs.foldl summaryStep (summaryStep a r)).minRate) = false := by
            rw [decide_eq_false_iff_not]
            intro hEq
            rw [← hEq] at h1
            exact lt_irrefl _ h1
          rw [this]
          exact h3
    · rw [if_neg hlt] at hm hd
      have hle : a.minRate.value ≤ r.Value.value :=
        not_lt.mp (fun h => hlt ((lt_iff_value _ _ hrfin ha).mpr h))
      rcases ih (summaryStep a r) (by rw [hm]; exact ha) hrs with
        ⟨h1, h2, h3⟩ | ⟨h1, h2, v, h3, h4⟩
      · left
        rw [h1, h2, hm, hd]
        refine ⟨rfl, rfl, ?_⟩
        intro x hx
        rcases List.mem_cons.mp hx with rfl | hx1
        · exact hle
        · exact hm ▸ h3 x hx1
      · right
        rw [hm] at h1
        refine ⟨h1, ?_, v, ?_, h4⟩
        · intro x hx
          rcases List.mem_cons.mp hx with rfl | hx1
          · exact le_trans (le_of_lt h1) hle
          · exact h2 x hx1
        · rw [List.find?_cons]
          have : decide (r.Value = (rs.foldl summaryStep (summaryStep a r)).minRate) = false := by
            rw [decide_eq_false_iff_not]
            intro hEq
            rw [← hEq] at h1
            exact lt_irrefl _ (lt_of_lt_of_le h1 hle)
          rw [this]
          exact h3

/-- The part of claim C1 that the code satisfies: when every value of the list
is finite and some value is positive, no value is greater than the reported
maximum, and the date reported with it is the date of the first observation
carrying it. -/
theorem summarize_max_of_pos (nowDate startDate code : String) (rates : List Valute)
    (hfin : ∀ r ∈ rates, r.Value.isFinite = true)
    (hpos : ∃ r ∈ rates, Float64.lt Float64.zero r.Value = true) :
    ∃ line, summarize nowDate startDate code rates = some line
      ∧ (∀ r ∈ rates, Float64.lt line.maxRate r.Value = false)
      ∧ ∃ v, rates.find? (fun r => decide (r.Value = line.maxRate)) = some v
          ∧ v.Date = line.maxRateDate := by
  obtain ⟨r0, hr0, hr0pos⟩ := hpos
  obtain ⟨first, _, hsum⟩ :=
    summarize_of_ne_nil nowDate startDate code rates (List.ne_nil_of_mem hr0)
  have hzero : Float64.zero.isFinite = true := rfl
  refine ⟨_, hsum, ?_⟩
  rcases foldl_summaryStep_max rates (initAcc nowDate startDate) hzero hfin with
    ⟨_, _, h3⟩ | ⟨_, h2, v, h3, h4⟩
  · have h0 := h3 r0 hr0
    have h1 := (lt_iff_value _ _ hzero (hfin r0 hr0)).mp hr0pos
    exact absurd h1 (not_lt.mpr h0)
  · have hv : v ∈ rates := List.mem_of_find?_eq_some h3
    have hveq : v.Value = (rates.foldl summaryStep (initAcc nowDate startDate)).maxRate := by
      simpa using List.find?_some h3
    have hmaxfin : (rates.foldl summaryStep (initAcc nowDate startDate)).maxRate.isFinite
        = true := hveq ▸ hfin v hv
    refine ⟨?_, v, h3, h4⟩
    intro r hr
    cases hlt : Float64.lt (rates.foldl summaryStep (initAcc nowDate startDate)).maxRate r.Value
    · rfl
    · exact absurd ((lt_iff_value _ _ hmaxfin (hfin r hr)).mp hlt) (not_lt.mpr (h2 r hr))

/-- The part of claim C2 that the code satisfies: when every value of the list
is finite and some value is below `math.MaxFloat64`, no value is less than the
reported minimum, and the date reported with it is the date of the first
observation carrying it. -/
theorem summarize_min_of_lt (nowDate startDate code : String) (rates : List Valute)
    (hfin : ∀ r ∈ rates, r.Value.isFinite = true)
    (hlt : ∃ r ∈ rates, Float64.lt r.Value MaxFloat64 = true) :
    ∃ line, summarize nowDate startDate code rates = some line
      ∧ (∀ r ∈ rates, Float64.lt r.Value line.minRate = false)
      ∧ ∃ v, rates.find? (fun r => decide (r.Value = line.minRate)) = some v
          ∧ v.Date = line.minRateDate := by
  obtain ⟨r0, hr0, hr0lt⟩ := hlt
  obtain ⟨first, _, hsum⟩ :=
    summarize_of_ne_nil nowDate startDate code rates (List.ne_nil_of_mem hr0)
  have hmaxf : MaxFloat64.isFinite = true := rfl
  refine ⟨_, hsum, ?_⟩
  rcases foldl_summaryStep_min rates (initAcc nowDate startDate) hmaxf hfin with
    ⟨_, _, h3⟩ | ⟨_, h2, v, h3, h4⟩
  · have h0 := h3 r0 hr0
    have h1 := (lt_iff_value _ _ (hfin r0 hr0) hmaxf).mp hr0lt
    exact absurd h1 (not_lt.mpr h0)
  · have hv : v ∈ rates := List.mem_of_find?_eq_some h3
    have hveq : v.Value = (rates.foldl summaryStep (initAcc nowDate startDate)).minRate := by
      simpa using List.find?_some h3
    have hminfin : (rates.foldl summaryStep (initAcc nowDate startDate)).minRate.isFinite
        = true := hveq ▸ hfin v hv
    refine ⟨?_, v, h3, h4⟩
    intro r hr
    cases hlt1 : Float64.lt r.Value (rates.foldl summaryStep (initAcc nowDate startDate)).minRate
    · rfl
    · exact absurd ((lt_iff_value _ _ (hfin r hr) hminfin).mp hlt1) (not_lt.mpr (h2 r hr))

end Task3
